import Mathlib

set_option maxHeartbeats 1000000

/-! Verification development for the ju package (multi-file JSON streaming).

The embedding follows the final evolution of ju.go: the `multi` reader
(`multi.Read`), the `JSONStreamer` decode cursor (`JSONStreamer.Next` layered
on `encoding/json`'s sticky-error decoder), `GZIPReader.Close`, `streamList`
(manifest resolution via `bufio.Scanner`/`ScanLines`), `streamDir` together
with `matchExt` and the `FileStreamer` name filter regexp
`^[^.].*[.][[:alnum:]]+`, `ReadJSON`, `WriteJSON`, and the concurrent decode
pipeline described only by the specification.

Bytes are modelled as natural numbers.  The record codec and the gzip codec
are external collaborators (encoding/json, compress/gzip); they are modelled
by an explicit self-delimiting record coding (`encodeRec`/`parseRec`) and by
letting each member file carry the read outcomes its (possibly decompressing)
adapter produces. -/

/-- Bytes of the logical (post-decompression) byte stream. -/
abbrev Byte := Nat

/-- Outcome of one Read call on an open member-file adapter: the bytes
returned together with `rerr = some e` for a non-EOF read error `e`.
End of file is reached when the outcome list is exhausted; from then on the
underlying reader answers (0 bytes, io.EOF), as an os.File or a drained
gzip.Reader does. -/
structure ReadOut where
  data : List Byte
  rerr : Option Nat
 deriving DecidableEq, Repr

/-- One member file of a `multi` reader.  `isGz` records whether the name
ends in ".gz" (in which case `multi.Read` wraps the handle in a GZIPReader);
`outs` are the read outcomes the opened adapter yields (already decompressed
when `isGz`), `openErr` a failure of os.Open / gzip.NewReader, and
`closeErr` the result the adapter's Close will report. -/
structure MFile where
  isGz : Bool
  openErr : Option Nat
  outs : List ReadOut
  closeErr : Option Nat
 deriving DecidableEq, Repr

/-- The currently open reader held in `multi.reader`: its remaining read
outcomes and the error its Close will report. -/
structure Rdr where
  outs : List ReadOut
  closeErr : Option Nat
 deriving DecidableEq, Repr

/-- State of the `multi` struct: the resolved file list, the cursor `idx`,
and the currently open reader (nil when no member file is open). -/
structure Multi where
  files : List MFile
  idx : Nat
  reader : Option Rdr
 deriving DecidableEq, Repr

/-- Result of one `multi.Read` call: `bytes n e` models `return n, e` with
`e = none` for a nil error, `eofR n` models `return n, io.EOF`, and `oob`
models the runtime index-out-of-range panic raised by `m.files[m.idx]`. -/
inductive MRes where
  | bytes (data : List Byte) (e : Option Nat)
  | eofR (data : List Byte)
  | oob
 deriving DecidableEq, Repr

/-- The part of `multi.Read` after a reader is open: delegate the read to the
current reader and dispatch on its status exactly as the Go switch does.
Returns the call result and the new value of the `reader` field. -/
def readCurrent (nfiles idx : Nat) (r : Rdr) : MRes × Option Rdr :=
  match r.outs with
  | [] =>
    -- the underlying reader is drained: it reports (0, io.EOF)
    if idx < nfiles then
      -- end of reader but more files remain: close, clear reader, (n, nil)
      match r.closeErr with
      | some ce => (.bytes [] (some ce), some r)
      | none => (.bytes [] none, none)
    else
      -- end of the last reader: close, clear reader, (n, io.EOF)
      match r.closeErr with
      | some ce => (.bytes [] (some ce), some r)
      | none => (.eofR [], none)
  | o :: rest =>
    match o.rerr with
    | none => (.bytes o.data none, some ⟨rest, r.closeErr⟩)
    | some e =>
      -- some unknown error: close; a failing close replaces the read error
      -- and the reader field is left set in both sub-cases
      match r.closeErr with
      | some ce => (.bytes [] (some ce), some ⟨rest, r.closeErr⟩)
      | none => (.bytes o.data (some e), some ⟨rest, r.closeErr⟩)

/-- Transcription of `multi.Read` (final evolution): the guard is
`len(m.files) == 0`; when no reader is open the file at `m.idx` is opened
(wrapped in a GZIPReader when its name ends in ".gz" - the adapter is opaque,
so in both branches reads yield the file's `outs`) and `idx` is incremented;
then the read is delegated to the open reader. -/
def multiRead (m : Multi) : MRes × Multi :=
  if m.files.length = 0 then (.eofR [], m)
  else
    match m.reader with
    | some r =>
      match readCurrent m.files.length m.idx r with
      | (res, or) => (res, { m with reader := or })
    | none =>
      match m.files[m.idx]? with
      | none => (.oob, m)
      | some f =>
        match f.openErr with
        | some e => (.bytes [] (some e), m)
        | none =>
          match readCurrent m.files.length (m.idx + 1) ⟨f.outs, f.closeErr⟩ with
          | (res, or) => (res, { m with idx := m.idx + 1, reader := or })

/-- Bytes delivered by a list of read outcomes. -/
def outsData (outs : List ReadOut) : List Byte :=
  (outs.map ReadOut.data).flatten

/-- Logical content of a member file. -/
def fileData (f : MFile) : List Byte :=
  outsData f.outs

/-- A member file whose open, reads and close all succeed. -/
def happyFile (f : MFile) : Prop :=
  f.openErr = none ∧ f.closeErr = none ∧ ∀ o ∈ f.outs, o.rerr = none

/-- Invariant of a `multi` state while the logical stream is being drained:
all files still to be read are error-free, and the cursor/reader shape is one
produced by the reader's own transitions before end of stream. -/
def happyM (m : Multi) : Prop :=
  (∀ f ∈ m.files.drop m.idx, happyFile f) ∧
  match m.reader with
  | none => m.idx < m.files.length ∨ m.files = []
  | some r =>
      r.closeErr = none ∧ (∀ o ∈ r.outs, o.rerr = none) ∧
      m.idx ≤ m.files.length ∧ m.files ≠ []

/-- Bytes the multi reader has yet to deliver. -/
def remBytes (m : Multi) : List Byte :=
  (match m.reader with
   | some r => outsData r.outs
   | none => []) ++
  ((m.files.drop m.idx).map fileData).flatten

/-- Termination measure for reading the multi stream to exhaustion. -/
def mu (m : Multi) : Nat :=
  (match m.reader with
   | some r => r.outs.length + 1
   | none => 0) +
  ((m.files.drop m.idx).map (fun f => f.outs.length + 2)).sum

/-- Record coding of the opaque serialize side (one JSON object followed by
the newline `json.Encoder.Encode` appends): record `r` is written as `r`
ones followed by a single zero, a self-delimiting coding whose decoder must
buffer across chunk and file boundaries exactly like `json.Decoder`. -/
def encodeRec (r : Nat) : List Byte :=
  List.replicate r 1 ++ [0]

/-- Encoding of a sequence of records. -/
def encodeRecs (rs : List Nat) : List Byte :=
  (rs.map encodeRec).flatten

/-- WriteJSON appends one encoded record to the destination stream. -/
def writeJSON (w : List Byte) (r : Nat) : List Byte :=
  w ++ encodeRec r

/-- Result of trying to parse one record from the front of a buffer:
a complete record with the remaining bytes, a buffer that is a proper prefix
of a record (more input needed), or bytes that can never start a record. -/
inductive ParseR where
  | found (r : Nat) (rest : List Byte)
  | more
  | bad
 deriving DecidableEq, Repr

/-- Incremental record parser used by the decoder model. -/
def parseRec : List Byte → ParseR
  | [] => .more
  | 0 :: rest => .found 0 rest
  | 1 :: rest =>
    match parseRec rest with
    | .found r t => .found (r + 1) t
    | .more => .more
    | .bad => .bad
  | _ :: _ => .bad

/-- Errors a decode call can report, mirroring `json.Decoder`:
io.EOF (clean end of stream), io.ErrUnexpectedEOF (truncated trailing data),
a malformed record, an I/O error surfaced by the reader, a runtime panic in
the reader, and a model-only fuel marker that adequate fuel never reaches. -/
inductive DErr where
  | eofE
  | unexpEOF
  | decodeE
  | ioE (e : Nat)
  | crashE
  | fuelE
 deriving DecidableEq, Repr

/-- Result of one decode call. -/
inductive DRes where
  | okRec (r : Nat)
  | errD (e : DErr)
 deriving DecidableEq, Repr

/-- State of the `json.Decoder` owned by a JSONStreamer: the buffered
unconsumed bytes, the sticky error `dec.err` (checked first by `Decode` and
set when a read of the stream fails), and the underlying multi reader. -/
structure JDec where
  buf : List Byte
  derr : Option DErr
  src : Multi
 deriving DecidableEq, Repr

/-- The decoder's read-a-value loop: parse a record from the buffer if one is
complete, otherwise refill from the underlying reader; on io.EOF from the
reader report io.EOF for an empty buffer and io.ErrUnexpectedEOF otherwise,
recording the error stickily.  `fuel` bounds the number of loop iterations;
`decDecode` always supplies enough. -/
def decReadValueF : Nat → JDec → DRes × JDec
  | 0, d => (.errD .fuelE, d)
  | fuel + 1, d =>
    match parseRec d.buf with
    | .found r rest => (.okRec r, { d with buf := rest })
    | .bad => (.errD .decodeE, { d with derr := some .decodeE })
    | .more =>
      match multiRead d.src with
      | (.bytes n none, m2) =>
        decReadValueF fuel { d with buf := d.buf ++ n, src := m2 }
      | (.bytes n (some e), m2) =>
        (.errD (.ioE e), { buf := d.buf ++ n, derr := some (.ioE e), src := m2 })
      | (.eofR n, m2) =>
        if (d.buf ++ n).isEmpty then
          (.errD .eofE, { buf := d.buf ++ n, derr := some .eofE, src := m2 })
        else
          (.errD .unexpEOF, { buf := d.buf ++ n, derr := some .unexpEOF, src := m2 })
      | (.oob, m2) => (.errD .crashE, { d with derr := some .crashE, src := m2 })

/-- Transcription of `json.Decoder.Decode`: return the sticky error if one is recorded,
otherwise run the read-value loop (with fuel that covers every remaining
read of the source). -/
def decDecode (d : JDec) : DRes × JDec :=
  match d.derr with
  | some e => (.errD e, d)
  | none => decReadValueF (mu d.src + 1) d

/-- Result of `JSONStreamer.Next`: a decoded object, the distinguished
`Done` signal, or a propagated error. -/
inductive NextRes where
  | obj (r : Nat)
  | done
  | errN (e : DErr)
 deriving DecidableEq, Repr

/-- Transcription of `JSONStreamer.Next`: decode the next object, turning io.EOF into Done. -/
def jsNext (d : JDec) : NextRes × JDec :=
  match decDecode d with
  | (.okRec r, d2) => (.obj r, d2)
  | (.errD .eofE, d2) => (.done, d2)
  | (.errD e, d2) => (.errN e, d2)

/-- Results of `k` successive Next calls. -/
def nextN : Nat → JDec → List NextRes × JDec
  | 0, d => ([], d)
  | k + 1, d =>
    match jsNext d with
    | (r, d2) =>
      match nextN k d2 with
      | (rs, d3) => (r :: rs, d3)

/-- A fresh multi reader over a resolved file list. -/
def mkMulti (files : List MFile) : Multi :=
  ⟨files, 0, none⟩

/-- A fresh JSONStreamer over a resolved file list (its decoder starts with
an empty buffer and no sticky error). -/
def mkStreamer (files : List MFile) : JDec :=
  ⟨[], none, mkMulti files⟩

/-- Decoding one value from a plain byte source, as `json.Decoder.Decode`
behaves on a reader that delivers exactly these bytes: io.EOF on an empty
source, io.ErrUnexpectedEOF on a truncated record, a decode error on
malformed bytes. -/
inductive DRes0 where
  | okR (r : Nat) (rest : List Byte)
  | eofE0
  | unexpEOF0
  | decodeE0
 deriving DecidableEq, Repr

/-- One-shot decode from a byte list. -/
def decodeFromBytes (bs : List Byte) : DRes0 :=
  match parseRec bs with
  | .found r rest => .okR r rest
  | .more => if bs.isEmpty then .eofE0 else .unexpEOF0
  | .bad => .decodeE0

/-- Transcription of `ReadJSON`: decode into the target, but swallow io.EOF
(`if err != nil && err != io.EOF { return err }; return nil`), leaving the
target untouched when nothing was decoded.  Returns the reported error and
the resulting value of the target object. -/
def readJSON (bs : List Byte) (o : Nat) : Option DErr × Nat :=
  match decodeFromBytes bs with
  | .okR r _ => (none, r)
  | .eofE0 => (none, o)
  | .unexpEOF0 => (some .unexpEOF, o)
  | .decodeE0 => (some .decodeE, o)

/-- Close events of a GZIPReader: closing the wrapped input reader and
closing the gzip decompressor. -/
inductive CloseEv where
  | closeIn
  | closeGz
 deriving DecidableEq, Repr

/-- A GZIPReader for the purpose of Close: whether `inReader` is non-nil and
what its Close returns, and what the gzip reader's Close returns. -/
structure GZR where
  inReader : Option (Option Nat)
  gzClose : Option Nat
 deriving DecidableEq, Repr

/-- Transcription of `GZIPReader.Close`: if `inReader` is non-nil it is
closed first and a failure is returned at once (the decompressor is then not
closed); otherwise the gzip reader's Close result is returned.  The event
list records the order of the close calls performed. -/
def gzipClose (g : GZR) : List CloseEv × Option Nat :=
  match g.inReader with
  | some ce =>
    match ce with
    | some e => ([.closeIn], some e)
    | none => ([.closeIn, .closeGz], g.gzClose)
  | none => ([.closeGz], g.gzClose)

/-- Removes one trailing carriage return, as bufio.ScanLines' dropCR does. -/
def dropCR (cs : List Char) : List Char :=
  if cs.getLast? = some '\r' then cs.dropLast else cs

/-- Worker for `scanLines`, accumulating the current line in reverse. -/
def scanLinesAux : List Char → List Char → List (List Char)
  | [], acc => if acc.isEmpty then [] else [dropCR acc.reverse]
  | c :: rest, acc =>
    if c = '\n' then dropCR acc.reverse :: scanLinesAux rest []
    else scanLinesAux rest (c :: acc)

/-- Tokens produced by a bufio.Scanner with the default ScanLines split:
one token per newline-terminated line with the terminator (and one trailing
carriage return) removed, plus a final token for trailing unterminated
data. -/
def scanLines (cs : List Char) : List (List Char) :=
  scanLinesAux cs []

/-- Transcription of `streamList` (final evolution): every scanned line of
the manifest is appended to the resolved file list, verbatim and with no
extension check. -/
def streamListFiles (content : List Char) : List (List Char) :=
  scanLines content

/-- Joins lines into a manifest body, terminating each with a newline. -/
def joinLines (lines : List (List Char)) : List Char :=
  (lines.map (fun l => l ++ ['\n'])).flatten

/-- Matches `[.][[:alnum:]]+` preceded by `.*` (which cannot cross a
newline): scanning the characters after the name's first character, looks
for a dot immediately followed by an ASCII alphanumeric, skipping only
non-newline characters on the way. -/
def hasDotAlnum : List Char → Bool
  | c :: d :: rest =>
    (c = '.' && d.isAlphanum) || (c ≠ '\n' && hasDotAlnum (d :: rest))
  | _ => false

/-- The FileStreamer name filter `^[^.].*[.][[:alnum:]]+` applied to a base
name: the first character is not a dot, and somewhere after it a dot is
immediately followed by an alphanumeric character. -/
def nameMatch : List Char → Bool
  | [] => false
  | c :: rest => c ≠ '.' && hasDotAlnum rest

/-- The extension of a base name, from its last dot (inclusive) to the end,
as `filepath.Ext` computes it; empty if the name has no dot. -/
def fileExt (cs : List Char) : List Char :=
  match cs with
  | [] => []
  | c :: rest =>
    match fileExt rest with
    | [] => if c = '.' then '.' :: rest else []
    | e => e

/-- Transcription of `matchExt`: with only the built-in ".gz" entry in the
allow-set everything matches; otherwise the extension must be a member. -/
def matchExt (ext : List Char) (allowed : List (List Char)) : Bool :=
  if allowed.length = 1 then true else allowed.contains ext

/-- Normalization FileStreamer applies to a caller extension: a leading dot
is added when missing. -/
def normalizeExt (v : List Char) : List Char :=
  match v with
  | '.' :: _ => v
  | _ => '.' :: v

/-- The allow-set FileStreamer builds: ".gz" plus the normalized caller
extensions, with map semantics (no duplicates). -/
def buildAllowed (exts : List (List Char)) : List (List Char) :=
  exts.foldl
    (fun acc v =>
      if acc.contains (normalizeExt v) then acc else acc ++ [normalizeExt v])
    [['.', 'g', 'z']]

/-- One directory entry passed to the walk callback: its base name and
whether it is a symbolic link. -/
structure DirEntry where
  base : List Char
  isLink : Bool
 deriving DecidableEq, Repr

/-- The filter `streamDir`'s walk callback applies to an entry: the name
regexp and the extension allow-set.  The callback receives the entry's
FileInfo but never consults it, so link status plays no part. -/
def walkInclude (allowed : List (List Char)) (e : DirEntry) : Bool :=
  nameMatch e.base && matchExt (fileExt e.base) allowed

/-- Transcription of `streamDir`: the entries the walk visits, filtered by
the callback, in walk order. -/
def streamDirFiles (allowed : List (List Char)) (entries : List DirEntry) :
    List (List Char) :=
  (entries.filter (walkInclude allowed)).map DirEntry.base

/-- Declarative form of the name filter used to state what directory
resolution accepts: the name starts with a non-dot character and contains,
after that first character, a dot immediately followed by an ASCII
alphanumeric character, with no newline among the skipped characters. -/
def NamePattern (cs : List Char) : Prop :=
  ∃ c0 mid d rest,
    cs = c0 :: (mid ++ '.' :: d :: rest) ∧ c0 ≠ '.' ∧
    (∀ x ∈ mid, x ≠ '\n') ∧ d.isAlphanum = true

/-- Modelled from the spec: state of a ParallelDecodePipeline run, which has
no implementation under src/.  `queue` is the shared work queue of files
(each file carried as its record sequence), `workers` the pool with each
worker's remaining records of its claimed file, `out` the records published
on the output channel so far, and `closed` whether the channel is closed. -/
structure PState where
  queue : List (List Nat)
  workers : List (Option (List Nat))
  out : List Nat
  closed : Bool
 deriving DecidableEq, Repr

/-- Modelled from the spec: one scheduler step of the pipeline.  A worker
claims the next file from the queue (each path is claimed exactly once), a
worker publishes the next record of its file on the output channel, a worker
that drained its file becomes idle, and the channel is closed only when the
queue is empty and every worker has terminated. -/
inductive PStep : PState → PState → Prop
  | claimFile (s : PState) (w : Nat) (f : List Nat) (q : List (List Nat))
      (hc : s.closed = false) (hq : s.queue = f :: q)
      (hw : s.workers.get? w = some none) :
      PStep s ⟨q, s.workers.set w (some f), s.out, false⟩
  | emit (s : PState) (w : Nat) (r : Nat) (rs : List Nat)
      (hc : s.closed = false) (hw : s.workers.get? w = some (some (r :: rs))) :
      PStep s ⟨s.queue, s.workers.set w (some rs), s.out ++ [r], false⟩
  | finishFile (s : PState) (w : Nat)
      (hc : s.closed = false) (hw : s.workers.get? w = some (some [])) :
      PStep s ⟨s.queue, s.workers.set w none, s.out, false⟩
  | closeChan (s : PState)
      (hc : s.closed = false) (hq : s.queue = [])
      (hw : ∀ o ∈ s.workers, o = none) :
      PStep s ⟨[], s.workers, s.out, true⟩

/-- Reachability under pipeline steps. -/
def PReach : PState → PState → Prop :=
  Relation.ReflTransGen PStep

/-- Modelled from the spec: the initial state of a run with worker count W:
the full file list queued, W idle workers, nothing published, channel
open. -/
def pInit (files : List (List Nat)) (W : Nat) : PState :=
  ⟨files, List.replicate W none, [], false⟩

/-- The multiset of record sequences still to be published: the loads of the
busy workers plus the queued files. -/
def remainingM (s : PState) : Multiset (List Nat) :=
  (s.workers.reduceOption : Multiset (List Nat)) + (s.queue : Multiset (List Nat))

/-- Modelled from the spec: `IlvM S out` says `out` is an interleaving of
the sequences in `S` - every element of every sequence appears exactly once,
and the records of any one sequence appear in their original order. -/
inductive IlvM : Multiset (List Nat) → List Nat → Prop
  | nilI (S : Multiset (List Nat)) (h : ∀ l ∈ S, l = ([] : List Nat)) : IlvM S []
  | consI (r : Nat) (rest : List Nat) (S : Multiset (List Nat)) (out : List Nat)
      (hmem : (r :: rest) ∈ S)
      (htail : IlvM (rest ::ₘ S.erase (r :: rest)) out) :
      IlvM S (r :: out)

theorem outsData_cons (o : ReadOut) (l : List ReadOut) :
    outsData (o :: l) = o.data ++ outsData l := by
  simp [outsData]

theorem parseRec_encode (r : Nat) (t : List Byte) :
    parseRec (encodeRec r ++ t) = .found r t := by
  induction r with
  | zero => simp [encodeRec, parseRec]
  | succ k ih =>
    have : encodeRec (k + 1) ++ t = 1 :: (encodeRec k ++ t) := by
      simp [encodeRec, List.replicate_succ]
    rw [this, parseRec, ih]

theorem parse_of_append (buf rem t : List Byte) (r : Nat)
    (h : buf ++ rem = encodeRec r ++ t) :
    parseRec buf = .more ∨
      ∃ rest, parseRec buf = .found r rest ∧ rest ++ rem = t := by
  induction r generalizing buf t with
  | zero =>
    cases buf with
    | nil => exact Or.inl rfl
    | cons b bs =>
      simp only [encodeRec, List.replicate_zero, List.nil_append, List.cons_append,
        List.cons.injEq] at h
      obtain ⟨hb, hbs⟩ := h
      subst hb
      exact Or.inr ⟨bs, rfl, hbs⟩
  | succ k ih =>
    cases buf with
    | nil => exact Or.inl rfl
    | cons b bs =>
      have h1 : encodeRec (k + 1) ++ t = 1 :: (encodeRec k ++ t) := by
        simp [encodeRec, List.replicate_succ]
      rw [h1] at h
      simp only [List.cons_append, List.cons.injEq] at h
      obtain ⟨hb, hbs⟩ := h
      subst hb
      rcases ih bs t hbs with hm | ⟨rest, hp, hr⟩
      · left
        simp [parseRec, hm]
      · right
        exact ⟨rest, by simp [parseRec, hp], hr⟩

theorem drop_cons_of_lt {α : Type} (l : List α) (i : Nat) (h : i < l.length) :
    ∃ f t, l.drop i = f :: t ∧ l[i]? = some f ∧ l.drop (i + 1) = t := by
  have hne : l.drop i ≠ [] := by
    simp [List.drop_eq_nil_iff]
    omega
  obtain ⟨f, t, hft⟩ := List.exists_cons_of_ne_nil hne
  refine ⟨f, t, hft, ?_, ?_⟩
  · have h0 := List.getElem?_drop l i 0
    rw [hft] at h0
    simpa using h0.symm
  · have h1 : l.drop (i + 1) = (l.drop i).drop 1 := by
      rw [List.drop_drop]
    rw [h1, hft]
    simp

theorem multiRead_happy (m : Multi) (h : happyM m) :
    (∃ n m2, multiRead m = (.bytes n none, m2) ∧ happyM m2 ∧
       n ++ remBytes m2 = remBytes m ∧ mu m2 < mu m) ∨
    (remBytes m = [] ∧ ∃ m2, multiRead m = (.eofR [], m2)) := by
  obtain ⟨hfiles, hsh⟩ := h
  by_cases hnil : m.files = []
  · right
    have hrd : m.reader = none := by
      cases hr : m.reader with
      | none => rfl
      | some r =>
        rw [hr] at hsh
        exact absurd hnil hsh.2.2.2
    constructor
    · simp [remBytes, hrd, hnil]
    · exact ⟨m, by simp [multiRead, hnil]⟩
  have hlen : m.files.length ≠ 0 := by
    simpa [List.length_eq_zero] using hnil
  cases hr : m.reader with
  | some r =>
    rw [hr] at hsh
    obtain ⟨hclose, houts, hidx, -⟩ := hsh
    cases ho : r.outs with
    | nil =>
      by_cases hlt : m.idx < m.files.length
      · -- end of reader, more files remain: (n, nil), reader cleared
        left
        refine ⟨[], { m with reader := none }, ?_, ?_, ?_, ?_⟩
        · simp [multiRead, hlen, hr, readCurrent, ho, hlt, hclose]
        · exact ⟨hfiles, Or.inl hlt⟩
        · simp [remBytes, hr, ho, outsData]
        · simp [mu, hr, ho]
      · -- end of the last reader: (n, io.EOF)
        right
        have hge : m.files.length ≤ m.idx := Nat.le_of_not_lt hlt
        constructor
        · simp [remBytes, hr, ho, outsData, List.drop_eq_nil_of_le hge]
        · exact ⟨{ m with reader := none },
            by simp [multiRead, hlen, hr, readCurrent, ho, hlt, hclose]⟩
    | cons o rest =>
      left
      have horerr : o.rerr = none := houts o (by simp [ho])
      refine ⟨o.data, { m with reader := some ⟨rest, r.closeErr⟩ }, ?_, ?_, ?_, ?_⟩
      · simp [multiRead, hlen, hr, readCurrent, ho, horerr]
      · refine ⟨hfiles, ?_⟩
        refine ⟨hclose, ?_, hidx, hnil⟩
        intro o2 ho2
        exact houts o2 (by simp [ho, ho2])
      · simp [remBytes, hr, ho, outsData_cons]
      · simp [mu, hr, ho]
  | none =>
    rw [hr] at hsh
    have hlt : m.idx < m.files.length := by
      rcases hsh with h1 | h1
      · exact h1
      · exact absurd h1 hnil
    obtain ⟨f, t, hdrop, hget, hdrop1⟩ := drop_cons_of_lt m.files m.idx hlt
    have hf : happyFile f := hfiles f (by simp [hdrop])
    obtain ⟨hopen, hclose, houts⟩ := hf
    have hfiles1 : ∀ g ∈ m.files.drop (m.idx + 1), happyFile g := by
      intro g hg
      rw [hdrop1] at hg
      exact hfiles g (by rw [hdrop]; exact List.mem_cons_of_mem f hg)
    cases ho : f.outs with
    | nil =>
      by_cases hlt1 : m.idx + 1 < m.files.length
      · left
        refine ⟨[], { m with idx := m.idx + 1, reader := none }, ?_, ?_, ?_, ?_⟩
        · simp [multiRead, hlen, hr, hget, hopen, readCurrent, ho, hlt1, hclose]
        · exact ⟨hfiles1, Or.inl hlt1⟩
        · simp [remBytes, hr, hdrop, hdrop1, fileData, ho, outsData]
        · simp [mu, hr, hdrop, hdrop1, ho]
      · right
        have hge : m.files.length ≤ m.idx + 1 := Nat.le_of_not_lt hlt1
        have ht : t = [] := by
          rw [← hdrop1]
          exact List.drop_eq_nil_of_le hge
        constructor
        · simp [remBytes, hr, hdrop, ht, fileData, ho, outsData]
        · exact ⟨{ m with idx := m.idx + 1, reader := none },
            by simp [multiRead, hlen, hr, hget, hopen, readCurrent, ho, hlt1, hclose]⟩
    | cons o rest =>
      left
      have horerr : o.rerr = none := houts o (by simp [ho])
      refine ⟨o.data,
        { m with idx := m.idx + 1, reader := some ⟨rest, f.closeErr⟩ }, ?_, ?_, ?_, ?_⟩
      · simp [multiRead, hlen, hr, hget, hopen, readCurrent, ho, horerr]
      · refine ⟨hfiles1, ?_⟩
        refine ⟨hclose, ?_, hlt, hnil⟩
        intro o2 ho2
        exact houts o2 (by simp [ho, ho2])
      · simp [remBytes, hr, hdrop, hdrop1, fileData, ho, outsData_cons]
      · simp [mu, hr, hdrop, hdrop1, ho]
      

theorem encodeRecs_cons (r : Nat) (rs : List Nat) :
    encodeRecs (r :: rs) = encodeRec r ++ encodeRecs rs := by
  simp [encodeRecs]

theorem decode_one (fuel : Nat) (buf : List Byte) (m : Multi) (r : Nat)
    (t : List Byte) (hfuel : mu m < fuel) (hm : happyM m)
    (hbr : buf ++ remBytes m = encodeRec r ++ t) :
    ∃ buf2 m2,
      decReadValueF fuel ⟨buf, none, m⟩ = (.okRec r, ⟨buf2, none, m2⟩) ∧
      happyM m2 ∧ buf2 ++ remBytes m2 = t ∧ mu m2 ≤ mu m := by
  induction fuel generalizing buf m with
  | zero => omega
  | succ n ih =>
    rcases parse_of_append buf (remBytes m) t r hbr with hmore | ⟨rest, hp, hrt⟩
    · rcases multiRead_happy m hm with ⟨nn, m2, hmr, hm2, hcat, hmu⟩ |
        ⟨hrem, m2, hmr⟩
      · have hbr2 : (buf ++ nn) ++ remBytes m2 = encodeRec r ++ t := by
          rw [List.append_assoc, hcat, hbr]
        obtain ⟨buf2, m3, heq, h2, h3, h4⟩ :=
          ih (buf ++ nn) m2 (by omega) hm2 hbr2
        refine ⟨buf2, m3, ?_, h2, h3, by omega⟩
        simp only [decReadValueF, hmore, hmr]
        exact heq
      · exfalso
        rw [hrem, List.append_nil] at hbr
        rw [hbr, parseRec_encode] at hmore
        exact ParseR.noConfusion hmore
    · refine ⟨rest, m, ?_, hm, hrt, Nat.le_refl _⟩
      simp [decReadValueF, hp]

theorem decode_eof (fuel : Nat) (m : Multi) (hfuel : mu m < fuel)
    (hm : happyM m) (hrem : remBytes m = []) :
    ∃ m2, decReadValueF fuel ⟨[], none, m⟩ = (.errD .eofE, ⟨[], some .eofE, m2⟩) := by
  induction fuel generalizing m with
  | zero => omega
  | succ n ih =>
    rcases multiRead_happy m hm with ⟨nn, m2, hmr, hm2, hcat, hmu⟩ |
      ⟨-, m2, hmr⟩
    · rw [hrem] at hcat
      obtain ⟨hnn, hrem2⟩ := List.append_eq_nil.mp hcat
      obtain ⟨m3, heq⟩ := ih m2 (by omega) hm2 hrem2
      refine ⟨m3, ?_⟩
      simp only [decReadValueF, parseRec, hmr, hnn]
      simpa using heq
    · refine ⟨m2, ?_⟩
      simp [decReadValueF, parseRec, hmr]

theorem nextN_sticky (k : Nat) (buf : List Byte) (m : Multi) :
    nextN k ⟨buf, some .eofE, m⟩ = (List.replicate k .done, ⟨buf, some .eofE, m⟩) := by
  induction k with
  | zero => simp [nextN]
  | succ n ih => simp [nextN, jsNext, decDecode, ih, List.replicate_succ]

theorem decode_all (rs : List Nat) (buf : List Byte) (m : Multi) (k : Nat)
    (hm : happyM m) (h : buf ++ remBytes m = encodeRecs rs) :
    (nextN (rs.length + 1 + k) ⟨buf, none, m⟩).fst
      = rs.map NextRes.obj ++ List.replicate (k + 1) NextRes.done := by
  induction rs generalizing buf m with
  | nil =>
    have harith : ([] : List Nat).length + 1 + k = k + 1 := by simp [Nat.add_comm]
    rw [harith]
    simp only [encodeRecs, List.map_nil, List.flatten_nil] at h
    obtain ⟨hbuf, hrem⟩ := List.append_eq_nil.mp h
    subst hbuf
    obtain ⟨m2, heq⟩ := decode_eof (mu m + 1) m (Nat.lt_succ_self _) hm hrem
    simp [nextN, jsNext, decDecode, heq, nextN_sticky, List.replicate_succ]
  | cons r rest ih =>
    have harith : (r :: rest).length + 1 + k = (rest.length + 1 + k) + 1 := by
      simp [List.length_cons]
      omega
    rw [harith]
    rw [encodeRecs_cons] at h
    obtain ⟨buf2, m2, heq, hm2, hrest, -⟩ :=
      decode_one (mu m + 1) buf m r (encodeRecs rest) (Nat.lt_succ_self _) hm h
    have ihr := ih buf2 m2 hm2 hrest
    simp only [nextN, jsNext, decDecode, heq]
    simp only [List.map_cons, List.cons_append]
    cases hn : nextN (rest.length + 1 + k) ⟨buf2, none, m2⟩ with
    | mk fst snd =>
      rw [hn] at ihr
      simpa using ihr

theorem happyM_mk (files : List MFile) (h : ∀ f ∈ files, happyFile f) :
    happyM (mkMulti files) := by
  refine ⟨by simpa [mkMulti] using h, ?_⟩
  cases files with
  | nil => exact Or.inr rfl
  | cons f t => exact Or.inl (by simp [mkMulti])

theorem remBytes_mk (files : List MFile) :
    remBytes (mkMulti files) = (files.map fileData).flatten := by
  simp [remBytes, mkMulti]

theorem encodeRecs_append (a b : List Nat) :
    encodeRecs (a ++ b) = encodeRecs a ++ encodeRecs b := by
  simp [encodeRecs]

theorem fileData_flatten_of_forall₂ (files : List MFile) (recs : List (List Nat))
    (h : List.Forall₂ (fun f rs => fileData f = encodeRecs rs) files recs) :
    (files.map fileData).flatten = encodeRecs recs.flatten := by
  induction h with
  | nil => simp [encodeRecs]
  | cons hfr _ ih =>
    simp only [List.map_cons, List.flatten_cons, List.flatten_cons, ih, hfr,
      encodeRecs_append]

/-- C1: for every ordered list of files, each holding a sequence of valid
records and each independently gzip-compressed or not, streaming through the
multi reader and the JSON streamer yields exactly the concatenation of all
records in file-list order then within-file order, then one Done, and Done
again on every further Next call. -/
theorem c1_stream_is_ordered_concat (files : List MFile) (recs : List (List Nat))
    (k : Nat)
    (hdata : List.Forall₂ (fun f rs => fileData f = encodeRecs rs) files recs)
    (hhappy : ∀ f ∈ files, happyFile f) :
    (nextN (recs.flatten.length + 1 + k) (mkStreamer files)).fst
      = recs.flatten.map NextRes.obj ++ List.replicate (k + 1) NextRes.done := by
  have hm : happyM (mkMulti files) := happyM_mk files hhappy
  have hrem : ([] : List Byte) ++ remBytes (mkMulti files) = encodeRecs recs.flatten := by
    rw [List.nil_append, remBytes_mk]
    exact fileData_flatten_of_forall₂ files recs hdata
  exact decode_all recs.flatten [] (mkMulti files) k hm hrem

/-- Witness for C1 at a concrete two-file list, the second file compressed:
file one holds records 2 and 0 split across two reads (the second read
straddles a record boundary), file two holds record 1. -/
theorem c1_stream_is_ordered_concat_witness :
    List.Forall₂ (fun f rs => fileData f = encodeRecs rs)
      [⟨false, none, [⟨[1, 1], none⟩, ⟨[0, 0], none⟩], none⟩,
       ⟨true, none, [⟨[1, 0], none⟩], none⟩]
      [[2, 0], [1]] ∧
    (∀ f ∈ [(⟨false, none, [⟨[1, 1], none⟩, ⟨[0, 0], none⟩], none⟩ : MFile),
            ⟨true, none, [⟨[1, 0], none⟩], none⟩], happyFile f) ∧
    (nextN 4 (mkStreamer
      [⟨false, none, [⟨[1, 1], none⟩, ⟨[0, 0], none⟩], none⟩,
       ⟨true, none, [⟨[1, 0], none⟩], none⟩])).fst
      = [NextRes.obj 2, NextRes.obj 0, NextRes.obj 1, NextRes.done] :=
  ⟨List.Forall₂.cons (by decide) (List.Forall₂.cons (by decide) List.Forall₂.nil),
   by simp [happyFile],
   by
    simpa using c1_stream_is_ordered_concat
      [⟨false, none, [⟨[1, 1], none⟩, ⟨[0, 0], none⟩], none⟩,
       ⟨true, none, [⟨[1, 0], none⟩], none⟩]
      [[2, 0], [1]] 0
      (List.Forall₂.cons (by decide) (List.Forall₂.cons (by decide) List.Forall₂.nil))
      (by simp [happyFile])⟩

/-- C2: the final evolution of `multi.Read` guards only against an empty
file list; in the state left after the stream delivered io.EOF (no open
reader, cursor one past the only file, file list non-empty) a further Read
evaluates `m.files[m.idx]` out of range - a runtime panic - instead of
returning (0, io.EOF).  The three conjuncts show the state is reached by two
honest reads and that the third read hits the out-of-range access. -/
theorem c2_read_after_eof_hits_out_of_range :
    multiRead ⟨[⟨false, none, [⟨[5], none⟩], none⟩], 0, none⟩
      = (.bytes [5] none,
         ⟨[⟨false, none, [⟨[5], none⟩], none⟩], 1, some ⟨[], none⟩⟩) ∧
    multiRead ⟨[⟨false, none, [⟨[5], none⟩], none⟩], 1, some ⟨[], none⟩⟩
      = (.eofR [], ⟨[⟨false, none, [⟨[5], none⟩], none⟩], 1, none⟩) ∧
    (multiRead ⟨[⟨false, none, [⟨[5], none⟩], none⟩], 1, none⟩).fst = .oob := by
  decide

/-- C3 counterexample: with both closes succeeding, `GZIPReader.Close`
performs the wrapped raw reader's close first and the decompressor's close
second, not the claimed decompressor-first order. -/
theorem c3_close_order_counterexample :
    (gzipClose ⟨some none, none⟩).fst = [CloseEv.closeIn, CloseEv.closeGz] ∧
    (gzipClose ⟨some none, none⟩).fst ≠ [CloseEv.closeGz, CloseEv.closeIn] := by
  decide

/-- C3 (amended): closing the adapter closes the underlying raw stream
first and the decompressor second, propagating the first error encountered;
when the raw close fails the decompressor is not closed at all. -/
theorem c3_amended_raw_close_first (bIn : Option Nat) (bGz : Option Nat) :
    (gzipClose ⟨some bIn, bGz⟩).fst
      = CloseEv.closeIn ::
          (match bIn with
           | none => [CloseEv.closeGz]
           | some _ => []) ∧
    (gzipClose ⟨some bIn, bGz⟩).snd
      = (match bIn with
         | none => bGz
         | some _ => bIn) := by
  cases bIn <;> simp [gzipClose]

/-- C4 counterexample: when the current file's read fails with error 7 and
its close then fails with error 3, `multi.Read` returns (0, close error 3),
not the pending read error 7 the claim promises. -/
theorem c4_close_error_supersedes_read_error :
    (multiRead ⟨[⟨false, none, [], none⟩], 1,
        some ⟨[⟨[9, 9], some 7⟩], some 3⟩⟩).fst = .bytes [] (some 3) ∧
    MRes.bytes ([] : List Byte) (some 3) ≠ .bytes [9, 9] (some 7) := by
  decide

/-- C4 (amended): on a non-EOF read error the current file is closed; if
the close succeeds the original read error is propagated together with the
bytes read, but if the close fails the close error replaces the read error
and zero bytes are reported; the reader field stays set either way. -/
theorem c4_amended_error_propagation (files : List MFile) (idx : Nat)
    (d : List Byte) (e : Nat) (rest : List ReadOut) (ce : Option Nat)
    (hne : files ≠ []) :
    multiRead ⟨files, idx, some ⟨⟨d, some e⟩ :: rest, ce⟩⟩
      = ((match ce with
          | some c => MRes.bytes [] (some c)
          | none => MRes.bytes d (some e)),
         ⟨files, idx, some ⟨rest, ce⟩⟩) := by
  have hlen : files.length ≠ 0 := by simpa [List.length_eq_zero] using hne
  cases ce <;> simp [multiRead, hlen, readCurrent]

/-- Witness for C4 (amended) at a concrete state whose close succeeds. -/
theorem c4_amended_error_propagation_witness :
    (([⟨false, none, [], none⟩] : List MFile) ≠ []) ∧
    multiRead ⟨[⟨false, none, [], none⟩], 1, some ⟨[⟨[9, 9], some 7⟩], none⟩⟩
      = (.bytes [9, 9] (some 7),
         ⟨[⟨false, none, [], none⟩], 1, some ⟨[], none⟩⟩) :=
  ⟨by decide,
   c4_amended_error_propagation [⟨false, none, [], none⟩] 1 [9, 9] 7 [] none
     (by decide)⟩

/-- C8: a record written by WriteJSON and read back through a fresh
streamer over that single file - compressed or not - yields the original
value, followed by Done. -/
theorem c8_write_read_roundtrip (r : Nat) (gz : Bool) :
    (nextN 2 (mkStreamer [⟨gz, none, [⟨writeJSON [] r, none⟩], none⟩])).fst
      = [NextRes.obj r, NextRes.done] := by
  have hm : happyM (mkMulti [⟨gz, none, [⟨writeJSON [] r, none⟩], none⟩]) :=
    happyM_mk _ (by simp [happyFile])
  have hrem : ([] : List Byte) ++
      remBytes (mkMulti [⟨gz, none, [⟨writeJSON [] r, none⟩], none⟩])
      = encodeRecs [r] := by
    simp [remBytes_mk, fileData, outsData, writeJSON, encodeRecs]
  simpa using decode_all [r] [] (mkMulti [⟨gz, none, [⟨writeJSON [] r, none⟩], none⟩]) 0 hm hrem

/-- C10: ReadJSON on a source that yields no data returns success and
leaves the target object unchanged, because `json.Decoder.Decode` reports
io.EOF and ReadJSON swallows exactly that error. -/
theorem c10_readJSON_empty_input (o : Nat) : readJSON [] o = (none, o) := by
  simp [readJSON, decodeFromBytes, parseRec]

theorem dropCR_of_not_mem (l : List Char) (h : '\r' ∉ l) : dropCR l = l := by
  unfold dropCR
  rw [if_neg]
  intro hl
  exact h (List.mem_of_mem_getLast? hl)

theorem scanLinesAux_no_newline (l rest acc : List Char) (h : '\n' ∉ l) :
    scanLinesAux (l ++ rest) acc = scanLinesAux rest (l.reverse ++ acc) := by
  induction l generalizing acc with
  | nil => simp
  | cons c cs ih =>
    have hc : c ≠ '\n' := fun hcn => h (hcn ▸ List.mem_cons_self c cs)
    have hcs : '\n' ∉ cs := fun hm => h (List.mem_cons_of_mem c hm)
    rw [List.cons_append, scanLinesAux, if_neg hc, ih (c :: acc) hcs]
    simp

/-- C5 counterexample: a manifest whose middle line is blank resolves to a
three-element list whose middle element is the empty path - blank lines are
not ignored by the final streamList. -/
theorem c5_blank_lines_not_ignored :
    streamListFiles ("f1.json\n\nf2.json.gz\n".toList)
      = ["f1.json".toList, [], "f2.json.gz".toList] ∧
    streamListFiles ("f1.json\n\nf2.json.gz\n".toList)
      ≠ ["f1.json".toList, "f2.json.gz".toList] := by
  decide

/-- C5 (amended): manifest resolution yields exactly the lines of the file,
verbatim, in order, with only the line terminator removed and with no
extension check - but every line is kept, a blank line becoming an empty
path in the resolved list. -/
theorem c5_amended_all_lines_verbatim (lines : List (List Char))
    (h : ∀ l ∈ lines, '\n' ∉ l ∧ '\r' ∉ l) :
    streamListFiles (joinLines lines) = lines := by
  induction lines with
  | nil => rfl
  | cons l rest ih =>
    obtain ⟨hn, hr⟩ := h l (List.mem_cons_self l rest)
    have hrest : ∀ x ∈ rest, '\n' ∉ x ∧ '\r' ∉ x :=
      fun x hx => h x (List.mem_cons_of_mem l hx)
    have hjoin : joinLines (l :: rest) = l ++ '\n' :: joinLines rest := by
      simp [joinLines]
    rw [streamListFiles, scanLines, hjoin,
      scanLinesAux_no_newline l ('\n' :: joinLines rest) [] hn]
    simp only [scanLinesAux, if_pos rfl, List.append_nil, List.reverse_reverse]
    rw [dropCR_of_not_mem l hr]
    exact congrArg (l :: ·) (ih hrest)

/-- Witness for C5 (amended) at the two claimed manifest lines plus a blank
line. -/
theorem c5_amended_all_lines_verbatim_witness :
    (∀ l ∈ [("f1.json".toList : List Char), [], "f2.json.gz".toList],
      '\n' ∉ l ∧ '\r' ∉ l) ∧
    streamListFiles (joinLines ["f1.json".toList, [], "f2.json.gz".toList])
      = ["f1.json".toList, [], "f2.json.gz".toList] :=
  ⟨by decide,
   c5_amended_all_lines_verbatim ["f1.json".toList, [], "f2.json.gz".toList]
     (by decide)⟩

/-- C6: with allow-set x1, directory resolution keeps a.x1 and drops b.x2
as claimed, but it also keeps the symbolic link s.x1: the walk callback
never consults the entry's FileInfo, so symlinked entries are not
excluded. -/
theorem c6_symlink_entries_not_excluded :
    streamDirFiles (buildAllowed ["x1".toList])
      [⟨"a.x1".toList, false⟩, ⟨"b.x2".toList, false⟩, ⟨"s.x1".toList, true⟩]
      = ["a.x1".toList, "s.x1".toList] := by
  decide

/-- C7 counterexample: with no registered extensions the non-dotfile entry
README is excluded by directory resolution - the name filter regexp demands
a dot followed by an alphanumeric character. -/
theorem c7_extensionless_entry_excluded :
    ("README".toList.head? ≠ some '.') ∧
    streamDirFiles (buildAllowed []) [⟨"README".toList, false⟩] = [] := by
  decide

theorem hasDotAlnum_iff (cs : List Char) :
    hasDotAlnum cs = true ↔
      ∃ mid d rest, cs = mid ++ '.' :: d :: rest ∧
        (∀ x ∈ mid, x ≠ '\n') ∧ d.isAlphanum = true := by
  induction cs with
  | nil =>
    simp only [hasDotAlnum]
    constructor
    · intro h
      exact absurd h (by simp)
    · rintro ⟨mid, d, rest, heq, -, -⟩
      exact absurd heq (by simp)
  | cons c tail ih =>
    cases tail with
    | nil =>
      simp only [hasDotAlnum]
      constructor
      · intro h
        exact absurd h (by simp)
      · rintro ⟨mid, d, rest, heq, -, -⟩
        cases mid with
        | nil => simp at heq
        | cons m ms => simp at heq
    | cons d2 rest2 =>
      simp only [hasDotAlnum, Bool.or_eq_true, Bool.and_eq_true, decide_eq_true_eq,
        bne_iff_ne, ne_eq]
      constructor
      · rintro (⟨hc, hd⟩ | ⟨hc, htail⟩)
        · exact ⟨[], d2, rest2, by simp [hc], by simp, hd⟩
        · obtain ⟨mid, d, rest, heq, hmid, hal⟩ := ih.mp htail
          refine ⟨c :: mid, d, rest, by simp [heq], ?_, hal⟩
          intro x hx
          rcases List.mem_cons.mp hx with hx | hx
          · exact hx ▸ hc
          · exact hmid x hx
      · rintro ⟨mid, d, rest, heq, hmid, hal⟩
        cases mid with
        | nil =>
          simp only [List.nil_append, List.cons.injEq] at heq
          obtain ⟨hc, hd2, hr2⟩ := heq
          exact Or.inl ⟨hc, hd2 ▸ hal⟩
        | cons m ms =>
          simp only [List.cons_append, List.cons.injEq] at heq
          obtain ⟨hcm, htail⟩ := heq
          refine Or.inr ⟨hcm ▸ hmid m (List.mem_cons_self m ms), ?_⟩
          exact ih.mpr ⟨ms, d, rest, htail, fun x hx => hmid x (List.mem_cons_of_mem m hx), hal⟩

theorem nameMatch_iff (cs : List Char) :
    nameMatch cs = true ↔ NamePattern cs := by
  cases cs with
  | nil =>
    simp only [nameMatch, NamePattern]
    constructor
    · intro h
      exact absurd h (by simp)
    · rintro ⟨c0, mid, d, rest, heq, -, -, -⟩
      exact absurd heq (by simp)
  | cons c0 tail =>
    simp only [nameMatch, Bool.and_eq_true, bne_iff_ne, ne_eq, decide_eq_true_eq,
      NamePattern]
    rw [hasDotAlnum_iff]
    constructor
    · rintro ⟨hc0, mid, d, rest, heq, hmid, hal⟩
      exact ⟨c0, mid, d, rest, by simp [heq], hc0, hmid, hal⟩
    · rintro ⟨c1, mid, d, rest, heq, hc1, hmid, hal⟩
      simp only [List.cons.injEq] at heq
      obtain ⟨hcc, htail⟩ := heq
      exact ⟨hcc ▸ hc1, mid, d, rest, htail, hmid, hal⟩

/-- C7 (amended): with no caller-registered extensions the allow-set check
passes everything, and directory resolution includes exactly the entries
whose base name starts with a non-dot character and contains, after that
first character, a dot immediately followed by an ASCII alphanumeric
character (no newline among the skipped characters); non-dotfile entries
without such an extension pattern, such as README, are excluded. -/
theorem c7_amended_filter_characterization (e : DirEntry) :
    walkInclude (buildAllowed []) e = true ↔ NamePattern e.base := by
  have hall : buildAllowed [] = [['.', 'g', 'z']] := rfl
  rw [walkInclude, hall]
  have hmx : matchExt (fileExt e.base) [['.', 'g', 'z']] = true := rfl
  rw [hmx, Bool.and_true]
  exact nameMatch_iff e.base

/-- Witness for C7 (amended) at the concrete entry a.x1. -/
theorem c7_amended_filter_characterization_witness :
    walkInclude (buildAllowed []) ⟨"a.x1".toList, false⟩ = true ↔
      NamePattern (DirEntry.mk "a.x1".toList false).base :=
  c7_amended_filter_characterization ⟨"a.x1".toList, false⟩

theorem reduceOption_replicate_none (W : Nat) :
    (List.replicate W (none : Option (List Nat))).reduceOption = [] := by
  induction W with
  | zero => rfl
  | succ n ih => simp [List.replicate_succ, ih]

theorem red_claim (ws : List (Option (List Nat))) (w : Nat) (f : List Nat)
    (hw : ws.get? w = some none) :
    ((ws.set w (some f)).reduceOption : Multiset (List Nat))
      = f ::ₘ (ws.reduceOption : Multiset (List Nat)) := by
  induction ws generalizing w with
  | nil => simp at hw
  | cons h t ih =>
    cases w with
    | zero =>
      have hh : h = none := by simpa using hw
      subst hh
      simp [Multiset.cons_coe]
    | succ n =>
      have hw2 : t.get? n = some none := by simpa using hw
      cases h with
      | none =>
        simpa using ih n hw2
      | some x =>
        have := ih n hw2
        simp only [List.set_cons_succ, List.reduceOption_cons_of_some,
          ← Multiset.cons_coe, this, Multiset.cons_swap]

theorem red_set_some (ws : List (Option (List Nat))) (w : Nat) (l l2 : List Nat)
    (hw : ws.get? w = some (some l)) :
    ∃ X : Multiset (List Nat),
      (ws.reduceOption : Multiset (List Nat)) = l ::ₘ X ∧
      ((ws.set w (some l2)).reduceOption : Multiset (List Nat)) = l2 ::ₘ X := by
  induction ws generalizing w with
  | nil => simp at hw
  | cons h t ih =>
    cases w with
    | zero =>
      have hh : h = some l := by simpa using hw
      subst hh
      exact ⟨(t.reduceOption : Multiset (List Nat)), by simp [Multiset.cons_coe],
        by simp [Multiset.cons_coe]⟩
    | succ n =>
      have hw2 : t.get? n = some (some l) := by simpa using hw
      obtain ⟨X, h1, h2⟩ := ih n hw2
      cases h with
      | none =>
        exact ⟨X, by simpa using h1, by simpa using h2⟩
      | some x =>
        refine ⟨x ::ₘ X, ?_, ?_⟩
        · simp only [List.reduceOption_cons_of_some, ← Multiset.cons_coe, h1,
            Multiset.cons_swap]
        · simp only [List.set_cons_succ, List.reduceOption_cons_of_some,
            ← Multiset.cons_coe, h2, Multiset.cons_swap]

theorem red_set_none (ws : List (Option (List Nat))) (w : Nat) (l : List Nat)
    (hw : ws.get? w = some (some l)) :
    ∃ X : Multiset (List Nat),
      (ws.reduceOption : Multiset (List Nat)) = l ::ₘ X ∧
      ((ws.set w none).reduceOption : Multiset (List Nat)) = X := by
  induction ws generalizing w with
  | nil => simp at hw
  | cons h t ih =>
    cases w with
    | zero =>
      have hh : h = some l := by simpa using hw
      subst hh
      exact ⟨(t.reduceOption : Multiset (List Nat)), by simp [Multiset.cons_coe],
        by simp⟩
    | succ n =>
      have hw2 : t.get? n = some (some l) := by simpa using hw
      obtain ⟨X, h1, h2⟩ := ih n hw2
      cases h with
      | none =>
        exact ⟨X, by simpa using h1, by simpa using h2⟩
      | some x =>
        refine ⟨x ::ₘ X, ?_, ?_⟩
        · simp only [List.reduceOption_cons_of_some, ← Multiset.cons_coe, h1,
            Multiset.cons_swap]
        · simp only [List.set_cons_succ, List.reduceOption_cons_of_some,
            ← Multiset.cons_coe, h2]

theorem ilv_cons_nil (S : Multiset (List Nat)) (out : List Nat) (h : IlvM S out) :
    IlvM ([] ::ₘ S) out := by
  induction h with
  | nilI S hS =>
    refine IlvM.nilI _ ?_
    intro l hl
    rcases Multiset.mem_cons.mp hl with hl | hl
    · exact hl
    · exact hS l hl
  | consI r rest S out hmem htail ih =>
    refine IlvM.consI r rest _ out (Multiset.mem_cons_of_mem hmem) ?_
    rw [Multiset.erase_cons_tail_of_mem hmem]
    rw [Multiset.cons_swap]
    exact ih

theorem pstep_closed (s t : PState) (h : PStep s t) (hc : t.closed = true) :
    t.queue = [] ∧ ∀ o ∈ t.workers, o = none := by
  cases h with
  | claimFile w f q hc0 hq hw => exact absurd hc (by simp)
  | emit w r rs hc0 hw => exact absurd hc (by simp)
  | finishFile w hc0 hw => exact absurd hc (by simp)
  | closeChan hc0 hq hw => exact ⟨rfl, hw⟩

theorem reach_closed_terminal (files : List (List Nat)) (W : Nat) (t : PState)
    (h : PReach (pInit files W) t) (hc : t.closed = true) :
    t.queue = [] ∧ ∀ o ∈ t.workers, o = none := by
  induction h with
  | refl => exact absurd hc (by simp [pInit])
  | tail hr hstep ih => exact pstep_closed _ _ hstep hc

theorem remainingM_pInit (files : List (List Nat)) (W : Nat) :
    remainingM (pInit files W) = (files : Multiset (List Nat)) := by
  simp [remainingM, pInit, reduceOption_replicate_none]

theorem reduceOption_eq_nil_of_all_none (ws : List (Option (List Nat)))
    (h : ∀ o ∈ ws, o = none) : ws.reduceOption = [] := by
  induction ws with
  | nil => rfl
  | cons o t ih =>
    have ho : o = none := h o (List.mem_cons_self o t)
    subst ho
    simpa using ih (fun x hx => h x (List.mem_cons_of_mem none hx))

theorem reach_out_ilv (t : PState) (htw : ∀ o ∈ t.workers, o = none)
    (htq : t.queue = []) :
    ∀ s, PReach s t → ∃ d, t.out = s.out ++ d ∧ IlvM (remainingM s) d := by
  intro s hr
  induction hr using Relation.ReflTransGen.head_induction_on with
  | refl =>
    refine ⟨[], by simp, ?_⟩
    have hz : remainingM t = 0 := by
      simp [remainingM, htq, reduceOption_eq_nil_of_all_none t.workers htw]
    rw [hz]
    exact IlvM.nilI 0 (fun l hl => absurd hl (Multiset.not_mem_zero l))
  | @head s s2 hstep hr2 ih =>
    obtain ⟨d, hout, hilv⟩ := ih
    cases hstep with
    | claimFile w f q hc hq hw =>
      refine ⟨d, by simpa using hout, ?_⟩
      have hrem : remainingM s
          = remainingM ⟨q, s.workers.set w (some f), s.out, false⟩ := by
        simp only [remainingM, hq, red_claim s.workers w f hw,
          ← Multiset.cons_coe, Multiset.cons_add, Multiset.add_cons]
      rw [hrem]
      exact hilv
    | emit w r rs hc hw =>
      obtain ⟨X, h1, h2⟩ := red_set_some s.workers w (r :: rs) rs hw
      refine ⟨r :: d, ?_, ?_⟩
      · rw [hout]
        simp
      · refine IlvM.consI r rs (remainingM s) d ?_ ?_
        · rw [remainingM, h1, Multiset.cons_add]
          exact Multiset.mem_cons_self _ _
        · have he : (remainingM s).erase (r :: rs)
              = X + (s.queue : Multiset (List Nat)) := by
            rw [remainingM, h1, Multiset.cons_add, Multiset.erase_cons_head]
          rw [he]
          have h3 : remainingM ⟨s.queue, s.workers.set w (some rs), s.out ++ [r], false⟩
              = rs ::ₘ (X + (s.queue : Multiset (List Nat))) := by
            simp only [remainingM, h2, Multiset.cons_add]
          rw [← h3]
          exact hilv
    | finishFile w hc hw =>
      obtain ⟨X, h1, h2⟩ := red_set_none s.workers w [] hw
      refine ⟨d, by simpa using hout, ?_⟩
      have h3 : remainingM ⟨s.queue, s.workers.set w none, s.out, false⟩
          = X + (s.queue : Multiset (List Nat)) := by
        simp only [remainingM, h2]
      have h4 : remainingM s = [] ::ₘ (X + (s.queue : Multiset (List Nat))) := by
        rw [remainingM, h1, Multiset.cons_add]
      rw [h4]
      exact ilv_cons_nil _ _ (h3 ▸ hilv)
    | closeChan hc hq hw =>
      refine ⟨d, by simpa using hout, ?_⟩
      have hrem : remainingM s = remainingM ⟨[], s.workers, s.out, true⟩ := by
        simp [remainingM, hq]
      rw [hrem]
      exact hilv

theorem ilv_length (S : Multiset (List Nat)) (out : List Nat) (h : IlvM S out) :
    out.length = (S.map List.length).sum := by
  induction h with
  | nilI S hS =>
    symm
    apply Multiset.sum_eq_zero
    intro x hx
    obtain ⟨l, hl, rfl⟩ := Multiset.mem_map.mp hx
    rw [hS l hl]
    rfl
  | consI r rest S out hmem htail ih =>
    rw [← Multiset.cons_erase hmem]
    simp only [Multiset.map_cons, Multiset.sum_cons, List.length_cons]
    simp only [Multiset.map_cons, Multiset.sum_cons] at ih
    omega

theorem sum_lengths_coe (files : List (List Nat)) (M : Nat)
    (h : ∀ f ∈ files, f.length = M) :
    ((files : Multiset (List Nat)).map List.length).sum = files.length * M := by
  induction files with
  | nil => simp
  | cons f t ih =>
    have hf : f.length = M := h f (List.mem_cons_self f t)
    have ht := ih (fun x hx => h x (List.mem_cons_of_mem f hx))
    simp only [← Multiset.cons_coe, Multiset.map_cons, Multiset.sum_cons, ht, hf,
      List.length_cons]
    ring

/-- C9: modelled from the spec (the parallel decode pipeline has no
implementation under src/): for K files of M records each and any worker
count W with 1 ≤ W ≤ K, every pipeline run that reaches a closed output
channel did so with an empty work queue and only terminated workers, and
the published output is an interleaving of the K record sequences - exactly
K×M records in total, each file's records appearing in their original
order. -/
theorem c9_pipeline_delivers_all (files : List (List Nat)) (W M : Nat)
    (t : PState) (hM : ∀ f ∈ files, f.length = M) (hW1 : 1 ≤ W)
    (hWK : W ≤ files.length) (hreach : PReach (pInit files W) t)
    (hclosed : t.closed = true) :
    t.queue = [] ∧ (∀ o ∈ t.workers, o = none) ∧
    IlvM ((files : List (List Nat)) : Multiset (List Nat)) t.out ∧
    t.out.length = files.length * M := by
  obtain ⟨htq, htw⟩ := reach_closed_terminal files W t hreach hclosed
  obtain ⟨d, hout, hilv⟩ := reach_out_ilv t htw htq (pInit files W) hreach
  have hto : t.out = d := by simpa [pInit] using hout
  rw [remainingM_pInit] at hilv
  refine ⟨htq, htw, ?_, ?_⟩
  · rw [hto]
    exact hilv
  · rw [hto, ilv_length _ _ hilv, sum_lengths_coe files M hM]

theorem c9_sample_run :
    PReach (pInit [[1], [2]] 2) ⟨[], [none, none], [1, 2], true⟩ := by
  show Relation.ReflTransGen PStep _ _
  refine Relation.ReflTransGen.head (PStep.claimFile _ 0 [1] [[2]] rfl rfl rfl) ?_
  refine Relation.ReflTransGen.head (PStep.claimFile _ 1 [2] [] rfl rfl rfl) ?_
  refine Relation.ReflTransGen.head (PStep.emit _ 0 1 [] rfl rfl) ?_
  refine Relation.ReflTransGen.head (PStep.emit _ 1 2 [] rfl rfl) ?_
  refine Relation.ReflTransGen.head (PStep.finishFile _ 0 rfl rfl) ?_
  refine Relation.ReflTransGen.head (PStep.finishFile _ 1 rfl rfl) ?_
  refine Relation.ReflTransGen.head (PStep.closeChan _ rfl rfl ?_) .refl
  decide

/-- Witness for C9 at a concrete run: two one-record files, two workers, a
schedule that claims both files, emits both records, retires both workers
and closes the channel. -/
theorem c9_pipeline_delivers_all_witness :
    (∀ f ∈ ([[1], [2]] : List (List Nat)), f.length = 1) ∧
    (IlvM (([[1], [2]] : List (List Nat)) : Multiset (List Nat)) [1, 2] ∧
     ([1, 2] : List Nat).length = ([[1], [2]] : List (List Nat)).length * 1) :=
  ⟨by decide,
   (c9_pipeline_delivers_all [[1], [2]] 2 1 ⟨[], [none, none], [1, 2], true⟩
     (by decide) (by decide) (by decide) c9_sample_run rfl).2.2⟩
